import Mathlib

/-!
Verification of the TTL + LRU cache core of `src/app.py`
(`AsyncTTL_LRUCache`).

The cache state is a dictionary from keys to entries (`_store`, modelled
as an association list with unique keys), an ordered list of keys
(`_lru`, an `OrderedDict` used for order only; least-recently-used at the
head, most-recently-used at the tail), a fixed capacity `max_size`, and
the two metrics counters `hits` and `misses`.

Timestamps are modelled as integers; every operation that reads the
clock (`time.time()`) takes the current instant `now` as an argument.
Operations are modelled at the granularity of one completed call: the
deferred LRU "touch" scheduled by a successful `get` is performed before
the operation is considered complete, which is the sequential semantics
of the source (spec §9 explicitly allows the in-line reinterpretation).
-/

namespace ToolCache

/-- `CacheEntry` from app.py: a value plus an optional absolute expiration
instant (`None` means "never expires"). -/
structure CacheEntry where
  value : String
  expire_at : Option Int
  deriving Repr, DecidableEq

/-- The state of `AsyncTTL_LRUCache`: `_store` (association list with
unique keys, in dict insertion order), `_lru` (key order, LRU at head),
`_max_size`, and the `hits`/`misses` counters. -/
structure Cache where
  store : List (String × CacheEntry)
  lru : List String
  max_size : Nat
  hits : Nat
  misses : Nat
  deriving Repr, DecidableEq

/-- `_is_expired_unlocked`: `e.expire_at is not None and e.expire_at <= time.time()`. -/
def isExpired (e : CacheEntry) (now : Int) : Bool :=
  match e.expire_at with
  | none => false
  | some t => t ≤ now

/-- `self._store.get(key)`: dictionary lookup. -/
def storeLookup (key : String) : List (String × CacheEntry) → Option CacheEntry
  | [] => none
  | p :: rest => if p.1 = key then some p.2 else storeLookup key rest

/-- `self._store.pop(key, None)`: remove the key's binding (a dict holds
each key at most once, so removing every matching pair is the same). -/
def storePop (st : List (String × CacheEntry)) (key : String) : List (String × CacheEntry) :=
  st.filter (fun p => p.1 ≠ key)

/-- `self._lru.pop(key, None)`: drop the key from the recency order. -/
def lruPop (l : List String) (key : String) : List String :=
  l.filter (fun k => k ≠ key)

/-- `self._lru.move_to_end(key, last=True)`: move the key to the
most-recently-used end (the key is present whenever the source calls
this). -/
def moveToEnd (l : List String) (key : String) : List String :=
  lruPop l key ++ [key]

/-- `_touch`: move the key to the most-recently-used end if it is still
tracked, otherwise do nothing. -/
def touch (l : List String) (key : String) : List String :=
  if key ∈ l then moveToEnd l key else l

/-- `get(key)`: miss on an absent key; on an expired key remove it from
both structures and miss; otherwise count a hit, touch the recency
order, and return the value. Returns the new state and the result
(`none` is the NOT_FOUND outcome). -/
def getOp (s : Cache) (key : String) (now : Int) : Cache × Option String :=
  match storeLookup key s.store with
  | none => ({ s with misses := s.misses + 1 }, none)
  | some e =>
    if isExpired e now then
      ({ s with store := storePop s.store key, lru := lruPop s.lru key,
                misses := s.misses + 1 }, none)
    else
      ({ s with hits := s.hits + 1, lru := touch s.lru key }, some e.value)

/-- `expire_at = (time.time() + ttl_seconds) if ttl_seconds else None`:
Python truthiness makes `None` and `0` both map to "never expires",
while any non-zero ttl (including a negative one) yields `now + ttl`. -/
def computeExpire (now : Int) (ttl : Option Int) : Option Int :=
  match ttl with
  | none => none
  | some t => if t = 0 then none else some (now + t)

/-- `set(key, value, ttl_seconds)`: overwrite in place and move to the
most-recently-used end if the key exists; otherwise insert at the end of
both structures and, if the store now exceeds `max_size`, evict the
least-recently-used key (`popitem(last=False)` then `store.pop`). -/
def setOp (s : Cache) (key value : String) (ttl : Option Int) (now : Int) : Cache :=
  let expire_at := computeExpire now ttl
  if (storeLookup key s.store).isSome then
    { s with
      store := s.store.map (fun p => if p.1 = key then (key, ⟨value, expire_at⟩) else p),
      lru := moveToEnd s.lru key }
  else
    let store' := s.store ++ [(key, CacheEntry.mk value expire_at)]
    let lru' := s.lru ++ [key]
    if s.max_size < store'.length then
      { s with store := storePop store' lru'.headI, lru := lru'.tail }
    else
      { s with store := store', lru := lru' }

/-- `delete(key)`: remove the key from both structures; total, so a
missing key is a no-op. -/
def deleteOp (s : Cache) (key : String) : Cache :=
  { s with store := storePop s.store key, lru := lruPop s.lru key }

/-- One janitor tick (`_janitor` loop body): collect the keys expired as
of the tick's `now` snapshot, then pop each from both structures. -/
def sweepOp (s : Cache) (now : Int) : Cache :=
  let toDelete := (s.store.filter (fun p => isExpired p.2 now)).map Prod.fst
  { s with store := toDelete.foldl storePop s.store,
           lru := toDelete.foldl lruPop s.lru }

/-- `size()`: `len(self._store)`. -/
def Cache.size (s : Cache) : Nat := s.store.length

/-- A freshly constructed cache: empty store, empty recency order, zero
counters. -/
def emptyCache (maxSize : Nat) : Cache := ⟨[], [], maxSize, 0, 0⟩

/-- One completed public operation against the cache. -/
inductive Op where
  | get (key : String) (now : Int)
  | set (key : String) (value : String) (ttl : Option Int) (now : Int)
  | del (key : String)
  | sweep (now : Int)
  deriving Repr, DecidableEq

/-- Apply one operation to the state (discarding `get`'s return value). -/
def step (s : Cache) : Op → Cache
  | .get k now => (getOp s k now).1
  | .set k v ttl now => setOp s k v ttl now
  | .del k => deleteOp s k
  | .sweep now => sweepOp s now

/-- Run a sequence of operations from the empty cache. -/
def run (maxSize : Nat) (ops : List Op) : Cache :=
  ops.foldl step (emptyCache maxSize)

/-- Whether an operation is a `get` call (for hit/miss accounting). -/
def Op.isGet : Op → Bool
  | .get _ _ => true
  | _ => false

/-- The key set of the store, in dict order. -/
def keysOf (st : List (String × CacheEntry)) : List String := st.map Prod.fst

/-! ### Lemmas about the store and recency-order primitives -/

theorem mem_lruPop (l : List String) (k a : String) :
    a ∈ lruPop l k ↔ a ∈ l ∧ a ≠ k := by
  simp [lruPop, List.mem_filter]

theorem nodup_lruPop (l : List String) (k : String) (h : l.Nodup) :
    (lruPop l k).Nodup := h.filter _

theorem lruPop_eq_self (l : List String) (k : String) (h : k ∉ l) :
    lruPop l k = l := by
  apply List.filter_eq_self.mpr
  intro a ha
  simp only [decide_eq_true_eq]
  exact fun hak => h (hak ▸ ha)

theorem length_lruPop_le (l : List String) (k : String) :
    (lruPop l k).length ≤ l.length :=
  List.length_filter_le _ _

theorem mem_moveToEnd (l : List String) (k a : String) :
    a ∈ moveToEnd l k ↔ a ∈ l ∨ a = k := by
  by_cases h : a = k
  · simp [moveToEnd, h]
  · simp [moveToEnd, mem_lruPop, h]

theorem nodup_append_singleton (l : List String) (a : String)
    (h1 : l.Nodup) (h2 : a ∉ l) : (l ++ [a]).Nodup := by
  rw [List.nodup_append]
  refine ⟨h1, List.nodup_singleton a, ?_⟩
  intro x hx hxa
  simp only [List.mem_singleton] at hxa
  exact h2 (hxa ▸ hx)

theorem nodup_moveToEnd (l : List String) (k : String) (h : l.Nodup) :
    (moveToEnd l k).Nodup :=
  nodup_append_singleton _ _ (nodup_lruPop _ _ h) (by simp [mem_lruPop])

theorem keysOf_storePop (st : List (String × CacheEntry)) (k : String) :
    keysOf (storePop st k) = lruPop (keysOf st) k := by
  induction st with
  | nil => rfl
  | cons p t ih =>
    by_cases h : p.1 = k <;>
      simp [storePop, lruPop, keysOf, List.filter_cons, h] at * <;>
      exact ih

theorem mem_keysOf_storePop (st : List (String × CacheEntry)) (k a : String) :
    a ∈ keysOf (storePop st k) ↔ a ∈ keysOf st ∧ a ≠ k := by
  rw [keysOf_storePop]; exact mem_lruPop _ _ _

theorem storePop_eq_self (st : List (String × CacheEntry)) (k : String)
    (h : k ∉ keysOf st) : storePop st k = st := by
  apply List.filter_eq_self.mpr
  intro p hp
  simp only [decide_eq_true_eq]
  intro hpk
  exact h (hpk ▸ List.mem_map_of_mem Prod.fst hp)

theorem length_storePop_le (st : List (String × CacheEntry)) (k : String) :
    (storePop st k).length ≤ st.length :=
  List.length_filter_le _ _

theorem length_storePop_lt (st : List (String × CacheEntry)) (k : String)
    (hk : k ∈ keysOf st) : (storePop st k).length < st.length := by
  induction st with
  | nil => simp [keysOf] at hk
  | cons p t ih =>
    by_cases h : p.1 = k
    · have hpop : storePop (p :: t) k = storePop t k := by
        simp [storePop, List.filter_cons, h]
      rw [hpop, List.length_cons]
      exact Nat.lt_succ_of_le (List.length_filter_le _ _)
    · have hk' : k ∈ keysOf t := by
        simp only [keysOf, List.map_cons, List.mem_cons] at hk
        rcases hk with hk | hk
        · exact absurd hk.symm h
        · exact hk
      have hpop : storePop (p :: t) k = p :: storePop t k := by
        simp [storePop, List.filter_cons, h]
      rw [hpop, List.length_cons, List.length_cons]
      exact Nat.succ_lt_succ (ih hk')

theorem storePop_append (st st' : List (String × CacheEntry)) (k : String) :
    storePop (st ++ st') k = storePop st k ++ storePop st' k :=
  List.filter_append _ _

theorem keysOf_append (st st' : List (String × CacheEntry)) :
    keysOf (st ++ st') = keysOf st ++ keysOf st' :=
  List.map_append _ _ _

theorem storeLookup_eq_none_iff (k : String) (st : List (String × CacheEntry)) :
    storeLookup k st = none ↔ k ∉ keysOf st := by
  induction st with
  | nil => simp [storeLookup, keysOf]
  | cons p t ih =>
    by_cases h : p.1 = k
    · simp [storeLookup, keysOf, h]
    · have h' : ¬(k = p.1) := fun hk => h hk.symm
      simp [storeLookup, keysOf, h, h', ih]

theorem storeLookup_isSome_iff (k : String) (st : List (String × CacheEntry)) :
    (storeLookup k st).isSome = true ↔ k ∈ keysOf st := by
  rw [Option.isSome_iff_ne_none, ne_eq, storeLookup_eq_none_iff, not_not]

theorem keysOf_overwrite (st : List (String × CacheEntry)) (k : String) (e : CacheEntry) :
    keysOf (st.map (fun p => if p.1 = k then (k, e) else p)) = keysOf st := by
  induction st with
  | nil => rfl
  | cons p t ih =>
    by_cases h : p.1 = k <;> simp [keysOf, h] at * <;> exact ih

theorem storeLookup_overwrite_self (st : List (String × CacheEntry)) (k : String)
    (e : CacheEntry) (hk : k ∈ keysOf st) :
    storeLookup k (st.map (fun p => if p.1 = k then (k, e) else p)) = some e := by
  induction st with
  | nil => simp [keysOf] at hk
  | cons p t ih =>
    by_cases h : p.1 = k
    · simp [storeLookup, h]
    · have hk' : k ∈ keysOf t := by
        simp only [keysOf, List.map_cons, List.mem_cons] at hk
        rcases hk with hk | hk
        · exact absurd hk.symm h
        · exact hk
      simp [storeLookup, h, ih hk']

theorem storeLookup_append_of_none (st st' : List (String × CacheEntry)) (k : String)
    (h : storeLookup k st = none) :
    storeLookup k (st ++ st') = storeLookup k st' := by
  induction st with
  | nil => rfl
  | cons p t ih =>
    by_cases hp : p.1 = k
    · simp [storeLookup, hp] at h
    · simp only [storeLookup, hp, if_false, List.cons_append] at *
      exact ih h

theorem storeLookup_storePop_ne (st : List (String × CacheEntry)) (k k' : String)
    (h : k' ≠ k) : storeLookup k' (storePop st k) = storeLookup k' st := by
  induction st with
  | nil => rfl
  | cons p t ih =>
    by_cases hp : p.1 = k
    · have hpop : storePop (p :: t) k = storePop t k := by
        simp [storePop, List.filter_cons, hp]
      have hp' : ¬(p.1 = k') := fun hc => h (hc.symm.trans hp)
      rw [hpop, ih]
      simp [storeLookup, hp']
    · have hpop : storePop (p :: t) k = p :: storePop t k := by
        simp [storePop, List.filter_cons, hp]
      by_cases hp' : p.1 = k' <;> simp [hpop, storeLookup, hp', ih]

theorem storeLookup_mem (st : List (String × CacheEntry)) (k : String) (e : CacheEntry)
    (h : storeLookup k st = some e) : (k, e) ∈ st := by
  induction st with
  | nil => simp [storeLookup] at h
  | cons p t ih =>
    simp only [storeLookup] at h
    by_cases hp : p.1 = k
    · rw [if_pos hp] at h
      have he : p.2 = e := by injection h
      exact List.mem_cons.mpr (Or.inl (by rw [← hp, ← he]))
    · rw [if_neg hp] at h
      exact List.mem_cons.mpr (Or.inr (ih h))

theorem mem_storeLookup (st : List (String × CacheEntry)) (k : String) (e : CacheEntry)
    (hnd : (keysOf st).Nodup) (h : (k, e) ∈ st) : storeLookup k st = some e := by
  induction st with
  | nil => simp at h
  | cons p t ih =>
    have hnd' : (keysOf t).Nodup := (List.nodup_cons.mp hnd).2
    have hhd : p.1 ∉ keysOf t := (List.nodup_cons.mp hnd).1
    rcases List.mem_cons.mp h with he | he
    · rw [← he]
      simp [storeLookup]
    · have hp : ¬(p.1 = k) := by
        intro hc
        exact hhd (by rw [hc]; exact List.mem_map_of_mem Prod.fst he)
      simp only [storeLookup, if_neg hp]
      exact ih hnd' he

theorem storeLookup_eq_some_iff (st : List (String × CacheEntry)) (k : String)
    (e : CacheEntry) (hnd : (keysOf st).Nodup) :
    storeLookup k st = some e ↔ (k, e) ∈ st :=
  ⟨storeLookup_mem st k e, mem_storeLookup st k e hnd⟩

theorem foldl_lruPop_eq (td : List String) :
    ∀ l : List String, td.foldl lruPop l = l.filter (fun a => decide (a ∉ td)) := by
  induction td with
  | nil =>
    intro l
    simp
  | cons k t ih =>
    intro l
    rw [List.foldl_cons, ih, lruPop, List.filter_filter]
    apply List.filter_congr
    intro a _
    by_cases h1 : a = k <;> by_cases h2 : a ∈ t <;> simp [h1, h2]

theorem foldl_storePop_eq (td : List String) :
    ∀ st : List (String × CacheEntry),
      td.foldl storePop st = st.filter (fun p => decide (p.1 ∉ td)) := by
  induction td with
  | nil =>
    intro st
    simp
  | cons k t ih =>
    intro st
    rw [List.foldl_cons, ih, storePop, List.filter_filter]
    apply List.filter_congr
    intro p _
    by_cases h1 : p.1 = k <;> by_cases h2 : p.1 ∈ t <;> simp [h1, h2]

theorem keysOf_filter_key (q : String → Bool) (st : List (String × CacheEntry)) :
    keysOf (st.filter (fun p => q p.1)) = (keysOf st).filter q := by
  induction st with
  | nil => rfl
  | cons p t ih =>
    by_cases h : q p.1 = true <;>
      simp [keysOf, List.filter_cons, h] at * <;> exact ih

/-! ### The state invariant -/

/-- The invariant every completed operation maintains: the store's key
set and the recency order carry the same keys, each exactly once; the
capacity field is the constructed one; the tracked-key count respects
the capacity. -/
structure Good (m : Nat) (s : Cache) : Prop where
  store_nodup : (keysOf s.store).Nodup
  lru_nodup : s.lru.Nodup
  mem_iff : ∀ k, k ∈ keysOf s.store ↔ k ∈ s.lru
  max_eq : s.max_size = m
  size_le : s.size ≤ m

theorem good_get (m : Nat) (s : Cache) (k : String) (now : Int) (hg : Good m s) :
    Good m (getOp s k now).1 := by
  rcases hlk : storeLookup k s.store with _ | e
  · simp only [getOp, hlk]
    exact ⟨hg.store_nodup, hg.lru_nodup, hg.mem_iff, hg.max_eq, hg.size_le⟩
  · by_cases hexp : isExpired e now = true
    · simp only [getOp, hlk, if_pos hexp]
      refine ⟨?_, ?_, ?_, hg.max_eq, ?_⟩
      · rw [keysOf_storePop]
        exact nodup_lruPop _ _ hg.store_nodup
      · exact nodup_lruPop _ _ hg.lru_nodup
      · intro x
        rw [mem_keysOf_storePop, mem_lruPop]
        exact and_congr_left' (hg.mem_iff x)
      · exact le_trans (length_storePop_le _ _) hg.size_le
    · simp only [getOp, hlk, if_neg hexp]
      refine ⟨hg.store_nodup, ?_, ?_, hg.max_eq, hg.size_le⟩
      · unfold touch
        split
        · exact nodup_moveToEnd _ _ hg.lru_nodup
        · exact hg.lru_nodup
      · intro x
        unfold touch
        split
        · rename_i hkl
          rw [mem_moveToEnd]
          constructor
          · intro hx
            exact Or.inl ((hg.mem_iff x).mp hx)
          · rintro (hx | rfl)
            · exact (hg.mem_iff x).mpr hx
            · exact (hg.mem_iff _).mpr hkl
        · exact hg.mem_iff x

theorem good_del (m : Nat) (s : Cache) (k : String) (hg : Good m s) :
    Good m (deleteOp s k) := by
  refine ⟨?_, ?_, ?_, hg.max_eq, ?_⟩
  · rw [show (deleteOp s k).store = storePop s.store k from rfl, keysOf_storePop]
    exact nodup_lruPop _ _ hg.store_nodup
  · exact nodup_lruPop _ _ hg.lru_nodup
  · intro x
    rw [show (deleteOp s k).store = storePop s.store k from rfl, mem_keysOf_storePop,
      show (deleteOp s k).lru = lruPop s.lru k from rfl, mem_lruPop]
    exact and_congr_left' (hg.mem_iff x)
  · exact le_trans (length_storePop_le _ _) hg.size_le

theorem good_set (m : Nat) (s : Cache) (k v : String) (ttl : Option Int) (now : Int)
    (hg : Good m s) : Good m (setOp s k v ttl now) := by
  by_cases hks : (storeLookup k s.store).isSome = true
  · have hstore : (setOp s k v ttl now).store = s.store.map (fun p =>
        if p.1 = k then (k, ⟨v, computeExpire now ttl⟩) else p) := by
      simp only [setOp, if_pos hks]
    have hlru : (setOp s k v ttl now).lru = moveToEnd s.lru k := by
      simp only [setOp, if_pos hks]
    have hmax : (setOp s k v ttl now).max_size = s.max_size := by
      simp only [setOp, if_pos hks]
    have hkm : k ∈ keysOf s.store := (storeLookup_isSome_iff k s.store).mp hks
    refine ⟨?_, ?_, ?_, ?_, ?_⟩
    · rw [hstore, keysOf_overwrite]
      exact hg.store_nodup
    · rw [hlru]
      exact nodup_moveToEnd _ _ hg.lru_nodup
    · intro x
      rw [hstore, keysOf_overwrite, hlru, mem_moveToEnd]
      constructor
      · intro hx
        exact Or.inl ((hg.mem_iff x).mp hx)
      · rintro (hx | rfl)
        · exact (hg.mem_iff x).mpr hx
        · exact hkm
    · rw [hmax]
      exact hg.max_eq
    · show (setOp s k v ttl now).store.length ≤ m
      rw [hstore, List.length_map]
      exact hg.size_le
  · have hnone : storeLookup k s.store = none := by
      rcases h : storeLookup k s.store with _ | e
      · rfl
      · rw [h] at hks
        simp at hks
    have hkm : k ∉ keysOf s.store := (storeLookup_eq_none_iff k s.store).mp hnone
    have hkl : k ∉ s.lru := fun hc => hkm ((hg.mem_iff k).mpr hc)
    by_cases hcap :
        s.max_size < (s.store ++ [(k, CacheEntry.mk v (computeExpire now ttl))]).length
    · have hstore : (setOp s k v ttl now).store
          = storePop (s.store ++ [(k, CacheEntry.mk v (computeExpire now ttl))])
              ((s.lru ++ [k]).headI) := by
        simp only [setOp, if_neg hks, if_pos hcap]
      have hlru : (setOp s k v ttl now).lru = (s.lru ++ [k]).tail := by
        simp only [setOp, if_neg hks, if_pos hcap]
      have hmax : (setOp s k v ttl now).max_size = s.max_size := by
        simp only [setOp, if_neg hks, if_pos hcap]
      rcases hl : s.lru with _ | ⟨hd, t⟩
      · -- the recency order is empty, so the store is empty and the fresh
        -- key immediately evicts itself (only possible when max_size = 0)
        have h0 : keysOf s.store = [] := by
          rw [List.eq_nil_iff_forall_not_mem]
          intro x hx
          have hx2 := (hg.mem_iff x).mp hx
          rw [hl] at hx2
          simp at hx2
        have hempty : s.store = [] := by
          have hlen := congrArg List.length h0
          simp only [keysOf, List.length_map] at hlen
          exact List.length_eq_zero.mp hlen
        rw [hl, hempty] at hstore
        rw [hl] at hlru
        simp only [List.nil_append] at hstore hlru
        have hstore2 : (setOp s k v ttl now).store = [] := by
          rw [hstore]
          simp [storePop]
        have hlru2 : (setOp s k v ttl now).lru = [] := by
          rw [hlru]
          rfl
        refine ⟨?_, ?_, ?_, ?_, ?_⟩
        · rw [hstore2]
          exact List.nodup_nil
        · rw [hlru2]
          exact List.nodup_nil
        · intro x
          rw [hstore2, hlru2]
          simp [keysOf]
        · rw [hmax]
          exact hg.max_eq
        · show (setOp s k v ttl now).store.length ≤ m
          rw [hstore2]
          exact Nat.zero_le m
      · have hhd_l : hd ∈ s.lru := by
          rw [hl]
          exact List.mem_cons_self hd t
        have hhd_keys : hd ∈ keysOf s.store := (hg.mem_iff hd).mpr hhd_l
        have hk_ne : k ≠ hd := fun hc => hkl (hc ▸ hhd_l)
        have hndl : (hd :: t).Nodup := by
          rw [← hl]
          exact hg.lru_nodup
        have hkt : k ∉ t := fun hc => hkl (by rw [hl]; exact List.mem_cons_of_mem hd hc)
        rw [hl] at hstore hlru
        simp only [List.cons_append, List.headI, List.tail_cons] at hstore hlru
        rw [storePop_append] at hstore
        have hsingle : storePop [(k, CacheEntry.mk v (computeExpire now ttl))] hd
            = [(k, CacheEntry.mk v (computeExpire now ttl))] := by
          apply storePop_eq_self
          simp only [keysOf, List.map_cons, List.map_nil, List.mem_singleton]
          exact fun hc => hk_ne hc.symm
        rw [hsingle] at hstore
        have hkeys : keysOf (setOp s k v ttl now).store
            = lruPop (keysOf s.store) hd ++ [k] := by
          rw [hstore, keysOf_append, keysOf_storePop]
          rfl
        refine ⟨?_, ?_, ?_, ?_, ?_⟩
        · rw [hkeys]
          exact nodup_append_singleton _ _ (nodup_lruPop _ _ hg.store_nodup)
            (fun hc => hkm ((mem_lruPop _ _ _).mp hc).1)
        · rw [hlru]
          exact nodup_append_singleton _ _ (List.nodup_cons.mp hndl).2 hkt
        · intro x
          rw [hkeys, hlru, List.mem_append, List.mem_append, List.mem_singleton,
            mem_lruPop]
          constructor
          · rintro (⟨hx, hxh⟩ | rfl)
            · left
              have hx2 := (hg.mem_iff x).mp hx
              rw [hl] at hx2
              rcases List.mem_cons.mp hx2 with rfl | hxt
              · exact absurd rfl hxh
              · exact hxt
            · right
              rfl
          · rintro (hxt | rfl)
            · left
              refine ⟨(hg.mem_iff x).mpr (by rw [hl]; exact List.mem_cons_of_mem hd hxt), ?_⟩
              intro hxh
              exact (List.nodup_cons.mp hndl).1 (hxh ▸ hxt)
            · right
              rfl
        · rw [hmax]
          exact hg.max_eq
        · show (setOp s k v ttl now).store.length ≤ m
          rw [hstore, List.length_append, List.length_singleton]
          have h1 := length_storePop_lt s.store hd hhd_keys
          have h2 : s.store.length ≤ m := hg.size_le
          omega
    · have hstore : (setOp s k v ttl now).store
          = s.store ++ [(k, CacheEntry.mk v (computeExpire now ttl))] := by
        simp only [setOp, if_neg hks, if_neg hcap]
      have hlru : (setOp s k v ttl now).lru = s.lru ++ [k] := by
        simp only [setOp, if_neg hks, if_neg hcap]
      have hmax : (setOp s k v ttl now).max_size = s.max_size := by
        simp only [setOp, if_neg hks, if_neg hcap]
      have hkeys : keysOf (setOp s k v ttl now).store = keysOf s.store ++ [k] := by
        rw [hstore, keysOf_append]
        rfl
      refine ⟨?_, ?_, ?_, ?_, ?_⟩
      · rw [hkeys]
        exact nodup_append_singleton _ _ hg.store_nodup hkm
      · rw [hlru]
        exact nodup_append_singleton _ _ hg.lru_nodup hkl
      · intro x
        rw [hkeys, hlru, List.mem_append, List.mem_append, List.mem_singleton]
        exact or_congr_left (hg.mem_iff x)
      · rw [hmax]
        exact hg.max_eq
      · show (setOp s k v ttl now).store.length ≤ m
        rw [hstore, List.length_append, List.length_singleton]
        rw [List.length_append, List.length_singleton] at hcap
        have h2 : s.store.length ≤ m := hg.size_le
        have h3 : s.max_size = m := hg.max_eq
        omega

theorem good_sweep (m : Nat) (s : Cache) (now : Int) (hg : Good m s) :
    Good m (sweepOp s now) := by
  have hst : (sweepOp s now).store
      = s.store.filter (fun p => decide (p.1 ∉ ((s.store.filter
          (fun p => isExpired p.2 now)).map Prod.fst))) := by
    simp only [sweepOp]
    rw [foldl_storePop_eq]
  have hlr : (sweepOp s now).lru
      = s.lru.filter (fun a => decide (a ∉ ((s.store.filter
          (fun p => isExpired p.2 now)).map Prod.fst))) := by
    simp only [sweepOp]
    rw [foldl_lruPop_eq]
  refine ⟨?_, ?_, ?_, hg.max_eq, ?_⟩
  · rw [hst, keysOf_filter_key (fun a => decide (a ∉ ((s.store.filter
        (fun p => isExpired p.2 now)).map Prod.fst)))]
    exact hg.store_nodup.filter _
  · rw [hlr]
    exact hg.lru_nodup.filter _
  · intro x
    rw [hst, keysOf_filter_key (fun a => decide (a ∉ ((s.store.filter
        (fun p => isExpired p.2 now)).map Prod.fst))), List.mem_filter, hlr, List.mem_filter]
    exact and_congr_left' (hg.mem_iff x)
  · have : (sweepOp s now).size ≤ s.size := by
      rw [show (sweepOp s now).size = (sweepOp s now).store.length from rfl, hst]
      exact List.length_filter_le _ _
    exact le_trans this hg.size_le

theorem good_step (m : Nat) (s : Cache) (op : Op) (hg : Good m s) : Good m (step s op) := by
  cases op with
  | get k now => exact good_get m s k now hg
  | set k v ttl now => exact good_set m s k v ttl now hg
  | del k => exact good_del m s k hg
  | sweep now => exact good_sweep m s now hg

theorem good_foldl (m : Nat) (ops : List Op) :
    ∀ s : Cache, Good m s → Good m (ops.foldl step s) := by
  induction ops with
  | nil =>
    intro s hs
    exact hs
  | cons op t ih =>
    intro s hs
    exact ih _ (good_step m s op hs)

theorem good_empty (m : Nat) : Good m (emptyCache m) :=
  ⟨List.nodup_nil, List.nodup_nil, by simp [emptyCache, keysOf], rfl, by
    simp [emptyCache, Cache.size]⟩

theorem good_run (m : Nat) (ops : List Op) : Good m (run m ops) :=
  good_foldl m ops _ (good_empty m)

/-! ### Hit/miss counter accounting -/

theorem counters_step (s : Cache) (op : Op) :
    (step s op).hits + (step s op).misses
        = s.hits + s.misses + (if op.isGet then 1 else 0) ∧
      s.hits ≤ (step s op).hits ∧ s.misses ≤ (step s op).misses := by
  cases op with
  | get k now =>
    rcases hlk : storeLookup k s.store with _ | e
    · simp only [step, getOp, hlk, Op.isGet, if_true]
      omega
    · by_cases hexp : isExpired e now = true
      · simp only [step, getOp, hlk, if_pos hexp, Op.isGet, if_true]
        omega
      · simp only [step, getOp, hlk, if_neg hexp, Op.isGet, if_true]
        omega
  | set k v ttl now =>
    have h1 : (setOp s k v ttl now).hits = s.hits := by
      by_cases hks : (storeLookup k s.store).isSome = true
      · simp only [setOp, if_pos hks]
      · by_cases hcap :
            s.max_size < (s.store ++ [(k, CacheEntry.mk v (computeExpire now ttl))]).length
        · simp only [setOp, if_neg hks, if_pos hcap]
        · simp only [setOp, if_neg hks, if_neg hcap]
    have h2 : (setOp s k v ttl now).misses = s.misses := by
      by_cases hks : (storeLookup k s.store).isSome = true
      · simp only [setOp, if_pos hks]
      · by_cases hcap :
            s.max_size < (s.store ++ [(k, CacheEntry.mk v (computeExpire now ttl))]).length
        · simp only [setOp, if_neg hks, if_pos hcap]
        · simp only [setOp, if_neg hks, if_neg hcap]
    simp only [step, h1, h2, Op.isGet, Bool.false_eq_true, if_false]
    omega
  | del k =>
    simp only [step, deleteOp, Op.isGet, Bool.false_eq_true, if_false]
    omega
  | sweep now =>
    simp only [step, sweepOp, Op.isGet, Bool.false_eq_true, if_false]
    omega

theorem counters_foldl (ops : List Op) :
    ∀ s : Cache, (ops.foldl step s).hits + (ops.foldl step s).misses
      = s.hits + s.misses + (ops.filter Op.isGet).length := by
  induction ops with
  | nil =>
    intro s
    simp
  | cons op t ih =>
    intro s
    rw [List.foldl_cons, ih (step s op), (counters_step s op).1, List.filter_cons]
    by_cases h : Op.isGet op = true
    · rw [if_pos h, if_pos h, List.length_cons]
      omega
    · rw [if_neg h, if_neg h]
      omega

/-! ### Lookup after a `set`, and stores built from fresh keys -/

theorem storeLookup_setOp_self (m : Nat) (hm : 1 ≤ m) (s : Cache) (hg : Good m s)
    (k v : String) (ttl : Option Int) (now : Int) :
    storeLookup k (setOp s k v ttl now).store = some ⟨v, computeExpire now ttl⟩ := by
  by_cases hks : (storeLookup k s.store).isSome = true
  · have hstore : (setOp s k v ttl now).store = s.store.map (fun p =>
        if p.1 = k then (k, ⟨v, computeExpire now ttl⟩) else p) := by
      simp only [setOp, if_pos hks]
    rw [hstore]
    exact storeLookup_overwrite_self _ _ _ ((storeLookup_isSome_iff k s.store).mp hks)
  · have hnone : storeLookup k s.store = none := by
      rcases h : storeLookup k s.store with _ | e
      · rfl
      · rw [h] at hks
        simp at hks
    have hkm : k ∉ keysOf s.store := (storeLookup_eq_none_iff k s.store).mp hnone
    have hkl : k ∉ s.lru := fun hc => hkm ((hg.mem_iff k).mpr hc)
    by_cases hcap :
        s.max_size < (s.store ++ [(k, CacheEntry.mk v (computeExpire now ttl))]).length
    · have hstore : (setOp s k v ttl now).store
          = storePop (s.store ++ [(k, CacheEntry.mk v (computeExpire now ttl))])
              ((s.lru ++ [k]).headI) := by
        simp only [setOp, if_neg hks, if_pos hcap]
      rcases hl : s.lru with _ | ⟨hd, t⟩
      · exfalso
        have h0 : keysOf s.store = [] := by
          rw [List.eq_nil_iff_forall_not_mem]
          intro x hx
          have hx2 := (hg.mem_iff x).mp hx
          rw [hl] at hx2
          simp at hx2
        have hempty : s.store = [] := by
          have hlen := congrArg List.length h0
          simp only [keysOf, List.length_map] at hlen
          exact List.length_eq_zero.mp hlen
        rw [hempty] at hcap
        simp only [List.nil_append, List.length_singleton] at hcap
        have hmx := hg.max_eq
        omega
      · have hk_ne : k ≠ hd := by
          intro hc
          apply hkl
          rw [hl, hc]
          exact List.mem_cons_self hd t
        rw [hl] at hstore
        simp only [List.cons_append, List.headI] at hstore
        rw [hstore, storeLookup_storePop_ne _ _ _ hk_ne,
          storeLookup_append_of_none _ _ _ hnone]
        simp [storeLookup]
    · have hstore : (setOp s k v ttl now).store
          = s.store ++ [(k, CacheEntry.mk v (computeExpire now ttl))] := by
        simp only [setOp, if_neg hks, if_neg hcap]
      rw [hstore, storeLookup_append_of_none _ _ _ hnone]
      simp [storeLookup]

theorem keysOf_map_ent (l : List String) (g : String → CacheEntry) :
    keysOf (l.map (fun a => (a, g a))) = l := by
  induction l with
  | nil => rfl
  | cons a t ih =>
    simp only [List.map_cons, keysOf, List.map_cons] at *
    rw [ih]

theorem storeLookup_map_none (l : List String) (g : String → CacheEntry) (k : String)
    (h : k ∉ l) : storeLookup k (l.map (fun a => (a, g a))) = none := by
  induction l with
  | nil => rfl
  | cons a t ih =>
    have h1 : ¬(a = k) := fun hc => h (hc ▸ List.mem_cons_self a t)
    simp only [List.map_cons, storeLookup, if_neg h1]
    exact ih (fun hc => h (List.mem_cons_of_mem a hc))

theorem storeLookup_map_mem (l : List String) (g : String → CacheEntry) (k : String)
    (h : k ∈ l) : storeLookup k (l.map (fun a => (a, g a))) = some (g k) := by
  induction l with
  | nil => simp at h
  | cons a t ih =>
    by_cases h1 : a = k
    · subst h1
      simp [storeLookup]
    · have h2 : k ∈ t := (List.mem_cons.mp h).resolve_left (fun hc => h1 hc.symm)
      simp only [List.map_cons, storeLookup, if_neg h1]
      exact ih h2

theorem run_fresh_sets (N : Nat) (f : String → String) (ks : List String) :
    ∀ (pre : List String) (h mz : Nat),
      (pre ++ ks).Nodup → pre.length + ks.length ≤ N →
      (ks.map (fun k => Op.set k (f k) none 0)).foldl step
          (Cache.mk (pre.map (fun a => (a, CacheEntry.mk (f a) none))) pre N h mz)
        = Cache.mk ((pre ++ ks).map (fun a => (a, CacheEntry.mk (f a) none)))
            (pre ++ ks) N h mz := by
  induction ks with
  | nil =>
    intro pre h mz hnd hlen
    simp
  | cons k t ih =>
    intro pre h mz hnd hlen
    rw [List.map_cons, List.foldl_cons]
    have hk_pre : k ∉ pre := by
      rw [List.nodup_append] at hnd
      exact fun hc => hnd.2.2 hc (List.mem_cons_self k t)
    have hstep : step (Cache.mk (pre.map (fun a => (a, CacheEntry.mk (f a) none))) pre N h mz)
        (Op.set k (f k) none 0)
        = Cache.mk ((pre ++ [k]).map (fun a => (a, CacheEntry.mk (f a) none)))
            (pre ++ [k]) N h mz := by
      have hlk : storeLookup k (pre.map (fun a => (a, CacheEntry.mk (f a) none))) = none :=
        storeLookup_map_none pre _ k hk_pre
      have hks : ¬((storeLookup k
          (pre.map (fun a => (a, CacheEntry.mk (f a) none)))).isSome = true) := by
        rw [hlk]
        simp
      have hcap : ¬(N < ((pre.map (fun a => (a, CacheEntry.mk (f a) none)))
          ++ [(k, CacheEntry.mk (f k) (computeExpire 0 none))]).length) := by
        rw [List.length_append, List.length_map, List.length_singleton]
        simp only [List.length_cons] at hlen
        omega
      simp only [step, setOp, if_neg hks, if_neg hcap]
      rw [List.map_append]
      rfl
    rw [hstep]
    have hnd2 : ((pre ++ [k]) ++ t).Nodup := by
      rw [List.append_assoc, List.singleton_append]
      exact hnd
    have hlen2 : (pre ++ [k]).length + t.length ≤ N := by
      rw [List.length_append, List.length_singleton]
      simp only [List.length_cons] at hlen
      omega
    have hrec := ih (pre ++ [k]) h mz hnd2 hlen2
    rw [hrec, List.append_assoc, List.singleton_append]

/-! ### What one janitor tick does to each component -/

theorem sweep_store_eq (s : Cache) (now : Int) (hnd : (keysOf s.store).Nodup) :
    (sweepOp s now).store = s.store.filter (fun p => !(isExpired p.2 now)) := by
  have hst : (sweepOp s now).store
      = s.store.filter (fun p => decide (p.1 ∉ ((s.store.filter
          (fun p => isExpired p.2 now)).map Prod.fst))) := by
    simp only [sweepOp]
    rw [foldl_storePop_eq]
  rw [hst]
  apply List.filter_congr
  intro p hp
  by_cases hexp : isExpired p.2 now = true
  · have hmem : p.1 ∈ (s.store.filter (fun q => isExpired q.2 now)).map Prod.fst :=
      List.mem_map.mpr ⟨p, List.mem_filter.mpr ⟨hp, hexp⟩, rfl⟩
    simp [hmem, hexp]
  · have hnmem : p.1 ∉ (s.store.filter (fun q => isExpired q.2 now)).map Prod.fst := by
      intro hc
      rcases List.mem_map.mp hc with ⟨q, hq, hq1⟩
      have hq2 := List.mem_filter.mp hq
      have hpq : q = p := by
        have h1 := mem_storeLookup s.store q.1 q.2 hnd hq2.1
        have h2 := mem_storeLookup s.store p.1 p.2 hnd hp
        rw [hq1] at h1
        rw [h1] at h2
        injection h2 with h3
        exact Prod.ext hq1 h3
      rw [hpq] at hq2
      exact hexp hq2.2
    simp [hnmem, hexp]

theorem sweep_lru_mem (s : Cache) (now : Int) (hnd : (keysOf s.store).Nodup) (x : String) :
    x ∈ (sweepOp s now).lru ↔
      (x ∈ s.lru ∧ ∀ e, storeLookup x s.store = some e → isExpired e now = false) := by
  have hlr : (sweepOp s now).lru
      = s.lru.filter (fun a => decide (a ∉ ((s.store.filter
          (fun p => isExpired p.2 now)).map Prod.fst))) := by
    simp only [sweepOp]
    rw [foldl_lruPop_eq]
  rw [hlr, List.mem_filter]
  simp only [decide_eq_true_eq]
  apply and_congr_right
  intro _
  constructor
  · intro hnmem e hlk
    cases hb : isExpired e now with
    | false => rfl
    | true =>
      exfalso
      apply hnmem
      exact List.mem_map.mpr
        ⟨(x, e), List.mem_filter.mpr ⟨storeLookup_mem _ _ _ hlk, hb⟩, rfl⟩
  · intro hall hc
    rcases List.mem_map.mp hc with ⟨q, hq, hq1⟩
    have hq2 := List.mem_filter.mp hq
    have hlk : storeLookup x s.store = some q.2 := by
      have hm := mem_storeLookup s.store q.1 q.2 hnd hq2.1
      rw [hq1] at hm
      exact hm
    have hfalse := hall q.2 hlk
    have hq3 : (false : Bool) = true := by
      rw [← hfalse]
      exact hq2.2
    simp at hq3

/-! ### The claims -/

/-- C1: after every completed operation (get, set, delete, janitor
sweep), for all sequences of operations starting from the empty cache,
the store's key list and the recency order are duplicate-free and carry
exactly the same keys: the bijection invariant. -/
theorem bijection_invariant (maxSize : Nat) (ops : List Op) :
    ((run maxSize ops).store.map Prod.fst).Nodup ∧
      (run maxSize ops).lru.Nodup ∧
      ∀ k, k ∈ (run maxSize ops).store.map Prod.fst ↔ k ∈ (run maxSize ops).lru :=
  ⟨(good_run maxSize ops).store_nodup, (good_run maxSize ops).lru_nodup,
    (good_run maxSize ops).mem_iff⟩

/-- C2 counterexample: ttl = -1 is a non-positive ttl, yet `set` with
it creates an already-expired entry — the immediate `get` at the very
same instant returns NOT_FOUND instead of the stored value. -/
theorem negative_ttl_creates_expired_entry :
    ((-1 : Int) ≤ 0) ∧
      (getOp (setOp (emptyCache 10) "k" "v" (some (-1)) 0) "k" 0).2 = none := by
  decide

/-- C2 (amended): a `set(key, value, ttl)` whose ttl is absent or
exactly zero creates an entry that never expires — a later `get` at any
instant returns the value (max_size ≥ 1, so the fresh key is not itself
evicted).  A strictly negative ttl, by contrast, creates an
already-expired entry (see the counterexample). -/
theorem zero_ttl_never_expires (maxSize : Nat) (hmax : 1 ≤ maxSize) (ops : List Op)
    (k v : String) (ttl : Option Int) (now t : Int)
    (httl : ttl = none ∨ ttl = some 0) :
    (getOp (setOp (run maxSize ops) k v ttl now) k t).2 = some v := by
  have hexp : computeExpire now ttl = none := by
    rcases httl with rfl | rfl
    · rfl
    · simp [computeExpire]
  have hlk := storeLookup_setOp_self maxSize hmax (run maxSize ops)
    (good_run maxSize ops) k v ttl now
  rw [hexp] at hlk
  simp only [getOp, hlk]
  simp [isExpired]

theorem zero_ttl_never_expires_witness :
    (1 ≤ 1) ∧ ((some 0 : Option Int) = none ∨ (some 0 : Option Int) = some 0) ∧
      (getOp (setOp (run 1 []) "k" "v" (some 0) 5) "k" 999).2 = some "v" :=
  ⟨le_refl 1, Or.inr rfl,
    zero_ttl_never_expires 1 (le_refl 1) [] "k" "v" (some 0) 5 999 (Or.inr rfl)⟩

/-- C3: with max_size = 2, after `set a`, `set b`, a completed
`get a`, and `set c`, exactly key b is evicted: the store tracks a and
c, reads of a and c succeed, and a read of b misses. -/
theorem lru_ordering_under_reads :
    ((run 2 [Op.set "a" "va" none 0, Op.set "b" "vb" none 0, Op.get "a" 0,
        Op.set "c" "vc" none 0]).store.map Prod.fst = ["a", "c"]) ∧
      (getOp (run 2 [Op.set "a" "va" none 0, Op.set "b" "vb" none 0, Op.get "a" 0,
        Op.set "c" "vc" none 0]) "a" 1).2 = some "va" ∧
      (getOp (run 2 [Op.set "a" "va" none 0, Op.set "b" "vb" none 0, Op.get "a" 0,
        Op.set "c" "vc" none 0]) "c" 1).2 = some "vc" ∧
      (getOp (run 2 [Op.set "a" "va" none 0, Op.set "b" "vb" none 0, Op.get "a" 0,
        Op.set "c" "vc" none 0]) "b" 1).2 = none := by
  decide

/-- C5: after `set(k, v, ttl = t)` with t > 0, a `get(k)` at the same
instant returns v, and a `get(k)` more than t seconds after the set
returns NOT_FOUND, even though no janitor sweep ran in between. -/
theorem ttl_correctness (maxSize : Nat) (hmax : 1 ≤ maxSize) (ops : List Op)
    (k v : String) (t now later : Int) (ht : 0 < t) (hlater : now + t < later) :
    (getOp (setOp (run maxSize ops) k v (some t) now) k now).2 = some v ∧
      (getOp (setOp (run maxSize ops) k v (some t) now) k later).2 = none := by
  have ht0 : ¬(t = 0) := by omega
  have hexp : computeExpire now (some t) = some (now + t) := by
    simp [computeExpire, ht0]
  have hlk := storeLookup_setOp_self maxSize hmax (run maxSize ops)
    (good_run maxSize ops) k v (some t) now
  rw [hexp] at hlk
  constructor
  · simp only [getOp, hlk]
    have hfresh : isExpired ⟨v, some (now + t)⟩ now = false := by
      simp only [isExpired, decide_eq_false_iff_not]
      omega
    simp [hfresh]
  · simp only [getOp, hlk]
    have hstale : isExpired ⟨v, some (now + t)⟩ later = true := by
      simp only [isExpired, decide_eq_true_eq]
      omega
    simp [hstale]

theorem ttl_correctness_witness :
    (1 ≤ 1) ∧ ((0 : Int) < 5) ∧ ((0 : Int) + 5 < 6) ∧
      ((getOp (setOp (run 1 []) "k" "v" (some 5) 0) "k" 0).2 = some "v" ∧
        (getOp (setOp (run 1 []) "k" "v" (some 5) 0) "k" 6).2 = none) :=
  ⟨le_refl 1, by norm_num, by norm_num,
    ttl_correctness 1 (le_refl 1) [] "k" "v" 5 0 6 (by norm_num) (by norm_num)⟩

/-- C6: every completed `get` increments exactly one of the two
counters (never both, never neither), no operation ever decreases
either counter, and over any operation sequence from the empty cache
hits + misses equals the number of `get` calls. -/
theorem hit_miss_accounting (maxSize : Nat) (ops : List Op) :
    ((run maxSize ops).hits + (run maxSize ops).misses
        = (ops.filter Op.isGet).length) ∧
      ∀ (s : Cache) (op : Op),
        s.hits ≤ (step s op).hits ∧ s.misses ≤ (step s op).misses ∧
          (step s op).hits + (step s op).misses
            = s.hits + s.misses + (if op.isGet then 1 else 0) := by
  constructor
  · have h := counters_foldl ops (emptyCache maxSize)
    simpa [run, emptyCache] using h
  · intro s op
    exact ⟨(counters_step s op).2.1, (counters_step s op).2.2, (counters_step s op).1⟩

/-- C10: for a cache constructed with max_size ≥ 1, after every
completed operation sequence the number of tracked keys is at most
max_size — the insertion that would exceed capacity evicts one key
within the same `set` call. -/
theorem size_bounded (maxSize : Nat) (h : 1 ≤ maxSize) (ops : List Op) :
    (run maxSize ops).size ≤ maxSize :=
  (good_run maxSize ops).size_le

theorem size_bounded_witness :
    (1 ≤ 1) ∧ (run 1 [Op.set "a" "v" none 0, Op.set "b" "v" none 0]).size ≤ 1 :=
  ⟨le_refl 1, size_bounded 1 (le_refl 1) [Op.set "a" "v" none 0, Op.set "b" "v" none 0]⟩

/-- C4: with max_size = N ≥ 1, inserting N+1 distinct new keys (first
`a`, then `rest`, with `rest.length = N`) via `set` with no `get` in
between evicts exactly the first-inserted key: afterwards the store and
recency order hold exactly `rest`, a read of `a` misses, and every key
of `rest` is still readable with its value. -/
theorem capacity_eviction (N : Nat) (hN : 1 ≤ N) (a : String) (rest : List String)
    (hnd : (a :: rest).Nodup) (hlen : rest.length = N) (f : String → String) :
    (run N ((a :: rest).map (fun k => Op.set k (f k) none 0))).store
        = rest.map (fun k => (k, CacheEntry.mk (f k) none)) ∧
      (run N ((a :: rest).map (fun k => Op.set k (f k) none 0))).lru = rest ∧
      (getOp (run N ((a :: rest).map (fun k => Op.set k (f k) none 0))) a 0).2 = none ∧
      ∀ k ∈ rest,
        (getOp (run N ((a :: rest).map (fun k => Op.set k (f k) none 0))) k 0).2
          = some (f k) := by
  have hstate : run N ((a :: rest).map (fun k => Op.set k (f k) none 0))
      = Cache.mk (rest.map (fun k => (k, CacheEntry.mk (f k) none))) rest N 0 0 := by
    rcases List.eq_nil_or_concat rest with hre | ⟨L, b, hre⟩
    · rw [hre] at hlen
      simp at hlen
      omega
    · rw [List.concat_eq_append] at hre
      subst hre
      have hna : a ∉ L ++ [b] := (List.nodup_cons.mp hnd).1
      have hnrest : (L ++ [b]).Nodup := (List.nodup_cons.mp hnd).2
      have haL : a ∉ L := fun hc => hna (List.mem_append.mpr (Or.inl hc))
      have hab : ¬(b = a) := fun hc =>
        hna (List.mem_append.mpr (Or.inr (by rw [hc]; exact List.mem_singleton_self a)))
      have hbL : b ∉ L := by
        rw [List.nodup_append] at hnrest
        exact fun hc => hnrest.2.2 hc (List.mem_singleton_self b)
      have hbal : b ∉ a :: L := by
        rw [List.mem_cons]
        rintro (hc | hc)
        · exact hab hc
        · exact hbL hc
      have hsplit : (a :: (L ++ [b])).map (fun k => Op.set k (f k) none 0)
          = ((a :: L).map (fun k => Op.set k (f k) none 0)) ++ [Op.set b (f b) none 0] := by
        rw [← List.cons_append, List.map_append]
        rfl
      have hnd1 : (([] : List String) ++ (a :: L)).Nodup := by
        rw [List.nil_append, List.nodup_cons]
        constructor
        · exact haL
        · rw [List.nodup_append] at hnrest
          exact hnrest.1
      have hlen1 : ([] : List String).length + (a :: L).length ≤ N := by
        rw [List.length_append, List.length_singleton] at hlen
        simp only [List.length_nil, List.length_cons]
        omega
      have hfold := run_fresh_sets N f (a :: L) [] 0 0 hnd1 hlen1
      have hinit : emptyCache N
          = Cache.mk (([] : List String).map (fun x => (x, CacheEntry.mk (f x) none)))
              [] N 0 0 := rfl
      rw [run, hsplit, List.foldl_append, hinit, hfold]
      simp only [List.nil_append]
      have hce : computeExpire 0 none = none := rfl
      have hlkb : storeLookup b
          ((a :: L).map (fun x => (x, CacheEntry.mk (f x) none))) = none :=
        storeLookup_map_none _ _ _ hbal
      have hksb : ¬((storeLookup b
          ((a :: L).map (fun x => (x, CacheEntry.mk (f x) none)))).isSome = true) := by
        rw [hlkb]
        simp
      have hcapb : N < (((a :: L).map (fun x => (x, CacheEntry.mk (f x) none)))
          ++ [(b, CacheEntry.mk (f b) none)]).length := by
        rw [List.length_append, List.length_map, List.length_singleton, List.length_cons]
        rw [List.length_append, List.length_singleton] at hlen
        omega
      simp only [List.foldl_cons, List.foldl_nil, step, setOp, hce, if_neg hksb,
        if_pos hcapb, List.cons_append, List.headI, List.tail_cons]
      have hstorePop : storePop (((a :: L).map (fun x => (x, CacheEntry.mk (f x) none)))
          ++ [(b, CacheEntry.mk (f b) none)]) a
          = (L ++ [b]).map (fun x => (x, CacheEntry.mk (f x) none)) := by
        rw [storePop_append]
        have h1 : storePop ((a :: L).map (fun x => (x, CacheEntry.mk (f x) none))) a
            = L.map (fun x => (x, CacheEntry.mk (f x) none)) := by
          have hstep1 : storePop ((a :: L).map (fun x => (x, CacheEntry.mk (f x) none))) a
              = storePop (L.map (fun x => (x, CacheEntry.mk (f x) none))) a := by
            simp [storePop, List.filter_cons]
          rw [hstep1]
          exact storePop_eq_self _ _ (by rw [keysOf_map_ent]; exact haL)
        have h2 : storePop [(b, CacheEntry.mk (f b) none)] a
            = [(b, CacheEntry.mk (f b) none)] := by
          apply storePop_eq_self
          simp only [keysOf, List.map_cons, List.map_nil, List.mem_singleton]
          exact fun hc => hab hc.symm
        rw [h1, h2, List.map_append]
        rfl
      rw [hstorePop]
  refine ⟨?_, ?_, ?_, ?_⟩
  · rw [hstate]
  · rw [hstate]
  · rw [hstate]
    have hlka : storeLookup a (rest.map (fun k => (k, CacheEntry.mk (f k) none))) = none :=
      storeLookup_map_none _ _ _ (fun hc => (List.nodup_cons.mp hnd).1 hc)
    simp only [getOp, hlka]
  · intro k hk
    rw [hstate]
    have hlkk := storeLookup_map_mem rest (fun x => CacheEntry.mk (f x) none) k hk
    simp only [getOp, hlkk]
    simp [isExpired]

theorem capacity_eviction_witness :
    (1 ≤ 1) ∧ ("a" :: ["b"] : List String).Nodup ∧ (["b"] : List String).length = 1 ∧
      ((run 1 (("a" :: ["b"]).map (fun k => Op.set k ((fun _ => "v") k) none 0))).store
          = (["b"] : List String).map (fun k => (k, CacheEntry.mk ((fun _ => "v") k) none)) ∧
        (run 1 (("a" :: ["b"]).map (fun k => Op.set k ((fun _ => "v") k) none 0))).lru
          = ["b"] ∧
        (getOp (run 1 (("a" :: ["b"]).map
          (fun k => Op.set k ((fun _ => "v") k) none 0))) "a" 0).2 = none ∧
        ∀ k ∈ (["b"] : List String),
          (getOp (run 1 (("a" :: ["b"]).map
            (fun k => Op.set k ((fun _ => "v") k) none 0))) k 0).2
              = some ((fun _ => "v") k)) :=
  ⟨le_refl 1, by decide, rfl,
    capacity_eviction 1 (le_refl 1) "a" ["b"] (by decide) rfl (fun _ => "v")⟩

/-- C7: `set` on a key already present overwrites in place: the
store's key list — hence `size()` — is unchanged, no key is evicted,
the key now maps to the new value and expiration, and it is moved to
the most-recently-used end of the recency order; no capacity check is
involved, so this holds even at capacity. -/
theorem overwrite_in_place (s : Cache) (k v : String) (ttl : Option Int) (now : Int)
    (hk : k ∈ s.store.map Prod.fst) :
    (setOp s k v ttl now).store.map Prod.fst = s.store.map Prod.fst ∧
      (setOp s k v ttl now).size = s.size ∧
      storeLookup k (setOp s k v ttl now).store = some ⟨v, computeExpire now ttl⟩ ∧
      (setOp s k v ttl now).lru = moveToEnd s.lru k := by
  have hks : (storeLookup k s.store).isSome = true :=
    (storeLookup_isSome_iff k s.store).mpr hk
  have hstore : (setOp s k v ttl now).store = s.store.map (fun p =>
      if p.1 = k then (k, ⟨v, computeExpire now ttl⟩) else p) := by
    simp only [setOp, if_pos hks]
  have hlru : (setOp s k v ttl now).lru = moveToEnd s.lru k := by
    simp only [setOp, if_pos hks]
  refine ⟨?_, ?_, ?_, hlru⟩
  · rw [hstore]
    exact keysOf_overwrite s.store k _
  · show (setOp s k v ttl now).store.length = s.store.length
    rw [hstore, List.length_map]
  · rw [hstore]
    exact storeLookup_overwrite_self s.store k _ hk

theorem overwrite_in_place_witness :
    ("k" ∈ (Cache.mk [("k", CacheEntry.mk "old" none)] ["k"] 1 0 0).store.map Prod.fst) ∧
      ((setOp (Cache.mk [("k", CacheEntry.mk "old" none)] ["k"] 1 0 0)
            "k" "new" none 3).store.map Prod.fst
          = (Cache.mk [("k", CacheEntry.mk "old" none)] ["k"] 1 0 0).store.map Prod.fst ∧
        (setOp (Cache.mk [("k", CacheEntry.mk "old" none)] ["k"] 1 0 0) "k" "new" none 3).size
          = (Cache.mk [("k", CacheEntry.mk "old" none)] ["k"] 1 0 0).size ∧
        storeLookup "k" (setOp (Cache.mk [("k", CacheEntry.mk "old" none)] ["k"] 1 0 0)
            "k" "new" none 3).store
          = some ⟨"new", computeExpire 3 none⟩ ∧
        (setOp (Cache.mk [("k", CacheEntry.mk "old" none)] ["k"] 1 0 0) "k" "new" none 3).lru
          = moveToEnd (Cache.mk [("k", CacheEntry.mk "old" none)] ["k"] 1 0 0).lru "k") :=
  ⟨by decide, overwrite_in_place (Cache.mk [("k", CacheEntry.mk "old" none)] ["k"] 1 0 0)
    "k" "new" none 3 (by decide)⟩

/-- C8: one janitor tick removes from the store exactly the entries
whose expiration is set and has passed at the tick's start instant
(keeping every surviving entry verbatim), removes from the recency
order exactly the keys of those expired entries, and leaves the hit and
miss counters unchanged. -/
theorem janitor_tick (maxSize : Nat) (ops : List Op) (now : Int) :
    (sweepOp (run maxSize ops) now).store
        = (run maxSize ops).store.filter (fun p => !(isExpired p.2 now)) ∧
      (∀ x, x ∈ (sweepOp (run maxSize ops) now).lru ↔
        (x ∈ (run maxSize ops).lru ∧
          ∀ e, storeLookup x (run maxSize ops).store = some e → isExpired e now = false)) ∧
      (sweepOp (run maxSize ops) now).hits = (run maxSize ops).hits ∧
      (sweepOp (run maxSize ops) now).misses = (run maxSize ops).misses :=
  ⟨sweep_store_eq _ now (good_run maxSize ops).store_nodup,
    fun x => sweep_lru_mem _ now (good_run maxSize ops).store_nodup x, rfl, rfl⟩

/-- C9: `delete(key)` removes the key from both the store and the
recency order when present, leaves every other key's entry and recency
membership untouched, and is a complete no-op — the state is unchanged
— when the key is absent. -/
theorem delete_removes_and_noop (maxSize : Nat) (ops : List Op) (k : String) :
    k ∉ (deleteOp (run maxSize ops) k).store.map Prod.fst ∧
      k ∉ (deleteOp (run maxSize ops) k).lru ∧
      (∀ k', k' ≠ k →
        storeLookup k' (deleteOp (run maxSize ops) k).store
            = storeLookup k' (run maxSize ops).store ∧
          (k' ∈ (deleteOp (run maxSize ops) k).lru ↔ k' ∈ (run maxSize ops).lru)) ∧
      (k ∉ (run maxSize ops).store.map Prod.fst
        → deleteOp (run maxSize ops) k = run maxSize ops) := by
  refine ⟨?_, ?_, ?_, ?_⟩
  · intro hc
    exact ((mem_keysOf_storePop (run maxSize ops).store k k).mp hc).2 rfl
  · intro hc
    exact ((mem_lruPop (run maxSize ops).lru k k).mp hc).2 rfl
  · intro k' hk'
    refine ⟨storeLookup_storePop_ne _ _ _ hk', ?_⟩
    rw [show (deleteOp (run maxSize ops) k).lru = lruPop (run maxSize ops).lru k from rfl,
      mem_lruPop]
    exact ⟨fun h => h.1, fun h => ⟨h, hk'⟩⟩
  · intro habs
    have hlru_abs : k ∉ (run maxSize ops).lru :=
      fun hc => habs (((good_run maxSize ops).mem_iff k).mpr hc)
    have h1 : deleteOp (run maxSize ops) k
        = Cache.mk (storePop (run maxSize ops).store k) (lruPop (run maxSize ops).lru k)
            (run maxSize ops).max_size (run maxSize ops).hits (run maxSize ops).misses := rfl
    rw [h1, storePop_eq_self _ _ habs, lruPop_eq_self _ _ hlru_abs]

end ToolCache
